import Mathlib

/-!
Verification of the Eulerian-path-to-netlist converter (`converter.py`).

The core function `parse_connections` splits the input on `->`, matches each
token against the terminal regex `^(NM|PM|R|C)(\d+)_([DGSBPN])$`, and records,
for each matched terminal, the left neighbor (preferred) or right neighbor as
its connected node, skipping neighbors that are the bare component name or a
terminal of the same component, and never overwriting an existing record.
Tokens are modelled as `List Char`; the component map as an insertion-ordered
association list, mirroring Python's dict.
-/

namespace Euler

/-- Characters stripped by Python's `str.strip()` (ASCII whitespace). -/
def isSpaceChar (c : Char) : Bool :=
  c == ' ' || c == '\t' || c == '\n' || c == '\r' || c == '\x0b' || c == '\x0c'

/-- `data.strip()`: remove leading and trailing whitespace. -/
def pyStrip (s : List Char) : List Char :=
  ((s.dropWhile isSpaceChar).reverse.dropWhile isSpaceChar).reverse

/-- `data.split('->')`: split on the two-character separator, leftmost first;
the empty string yields `[[]]`, like Python's `"".split('->') == ['']`. -/
def splitArrow : List Char → List (List Char)
  | [] => [[]]
  | '-' :: '>' :: rest => [] :: splitArrow rest
  | c :: rest =>
    match splitArrow rest with
    | [] => [[c]]
    | t :: ts => (c :: t) :: ts

/-- Abbreviation for the character list of a string literal. -/
def s2l (s : String) : List Char := s.data

/-- Result of matching the terminal regex `^(NM|PM|R|C)(\d+)_([DGSBPN])$`:
the three capture groups. -/
structure TermMatch where
  compType : List Char
  compNum : List Char
  termType : Char
deriving DecidableEq, Repr

/-- The alternation `(NM|PM|R|C)` at the start of a token (the four prefixes
start with distinct letters, so the regex alternation is deterministic). -/
def matchPfx (tok : List Char) : Option (List Char × List Char) :=
  match tok with
  | c1 :: c2 :: rest =>
    if c1 = 'N' ∧ c2 = 'M' then some (['N', 'M'], rest)
    else if c1 = 'P' ∧ c2 = 'M' then some (['P', 'M'], rest)
    else if c1 = 'R' then some (['R'], c2 :: rest)
    else if c1 = 'C' then some (['C'], c2 :: rest)
    else none
  | [c1] =>
    if c1 = 'R' then some (['R'], [])
    else if c1 = 'C' then some (['C'], [])
    else none
  | [] => none

/-- The character class `[DGSBPN]` of the terminal regex: one shared class
for all component types. -/
def isTermLetter (c : Char) : Bool :=
  c == 'D' || c == 'G' || c == 'S' || c == 'B' || c == 'P' || c == 'N'

/-- `terminal_regex.match(tok)` for `^(NM|PM|R|C)(\d+)_([DGSBPN])$`: prefix,
then a nonempty maximal digit run, then `_`, then one letter of the class,
then the end of the token (Python's `$` also matches just before one trailing
newline). -/
def matchTerminal (tok : List Char) : Option TermMatch :=
  match matchPfx tok with
  | none => none
  | some (pfx, rest) =>
    if rest.takeWhile Char.isDigit = [] then none
    else
      match rest.dropWhile Char.isDigit with
      | c :: t :: rest3 =>
        if c = '_' ∧ isTermLetter t = true ∧ (rest3 = [] ∨ rest3 = ['\n']) then
          some ⟨pfx, rest.takeWhile Char.isDigit, t⟩
        else none
      | _ => none

/-- `comp_name = f"{comp_type}{comp_num}"`. -/
def compNameOf (m : TermMatch) : List Char := m.compType ++ m.compNum

/-- `is_..._part_of_same_comp`: the neighbor token is itself a terminal token
whose derived component name equals `name`. -/
def sameComp (name tok : List Char) : Bool :=
  match matchTerminal tok with
  | some m => decide (compNameOf m = name)
  | none => false

/-- Inner mapping: terminal code → connected node name, in insertion order. -/
abbrev TermMap := List (Char × List Char)

/-- Outer mapping: component name → terminal map, in insertion order. -/
abbrev Components := List (List Char × TermMap)

/-- Python `dict` lookup on the inner mapping. -/
def lookupTerm : TermMap → Char → Option (List Char)
  | [], _ => none
  | (t, v) :: rest, term => if t = term then some v else lookupTerm rest term

/-- Python `dict` lookup on the outer mapping. -/
def lookupComp : Components → List Char → Option TermMap
  | [], _ => none
  | (n, tm) :: rest, name => if n = name then some tm else lookupComp rest name

/-- Both lookups composed: the node recorded for `(name, term)`. -/
def lookup2 (comps : Components) (name : List Char) (term : Char) :
    Option (List Char) :=
  match lookupComp comps name with
  | some tm => lookupTerm tm term
  | none => none

/-- `if term_type not in components[comp_name]: components[comp_name][term_type] = v`
on the inner dict: insert only when the terminal has no entry yet. -/
def insertTermIfAbsent (tm : TermMap) (term : Char) (v : List Char) : TermMap :=
  match lookupTerm tm term with
  | some _ => tm
  | none => tm ++ [(term, v)]

/-- The same guarded assignment on the whole `defaultdict(dict)`: a missing
component entry is created with the single new binding. -/
def recordIfAbsent : Components → List Char → Char → List Char → Components
  | [], name, term, v => [(name, [(term, v)])]
  | (n, tm) :: rest, name, term, v =>
    if n = name then (n, insertTermIfAbsent tm term v) :: rest
    else (n, tm) :: recordIfAbsent rest name term v

/-- One neighbor check: skip the neighbor if it is the bare component name or
another terminal of the same component, else record it if the slot is free. -/
def tryRecord (comps : Components) (name : List Char) (term : Char)
    (tok : List Char) : Components :=
  if tok = name ∨ sameComp name tok = true then comps
  else recordIfAbsent comps name term tok

/-- The `if i > 0:` branch: try the previous token as the connection. -/
def leftRecord (path : List (List Char)) (comps : Components) (m : TermMatch)
    (i : Nat) : Components :=
  match i with
  | 0 => comps
  | Nat.succ j =>
    match path[j]? with
    | none => comps
    | some prev => tryRecord comps (compNameOf m) m.termType prev

/-- The `if i < len(path) - 1:` branch: try the next token as the connection. -/
def rightRecord (path : List (List Char)) (comps : Components) (m : TermMatch)
    (i : Nat) : Components :=
  match path[i + 1]? with
  | none => comps
  | some next => tryRecord comps (compNameOf m) m.termType next

/-- One iteration of the `for i, part in enumerate(path)` loop. -/
def processToken (path : List (List Char)) (comps : Components) (i : Nat) :
    Components :=
  match path[i]? with
  | none => comps
  | some part =>
    match matchTerminal part with
    | none => comps
    | some m => rightRecord path (leftRecord path comps m i) m i

/-- `parse_connections(data)`: strip, split on `->`, and run the loop over
`path = splitArrow (pyStrip data)`. -/
def parse_connections (data : List Char) : Components :=
  (List.range (splitArrow (pyStrip data)).length).foldl
    (processToken (splitArrow (pyStrip data))) []

/-- A token shaped like a component identifier: one of the four prefixes
followed by a nonempty run of digits and nothing else. This is the shape of
every key `parse_connections` ever creates. -/
def isCompIdent (name : List Char) : Bool :=
  match matchPfx name with
  | some (_, rest) => decide (rest ≠ []) && rest.all Char.isDigit
  | none => false

/-- Modelled from the spec for comparison only: the per-type legal terminal
codes the spec describes (D, G, S, B for NMOS/PMOS; P, N for
Resistor/Capacitor). The code's single shared class `[DGSBPN]` is compared
against this. -/
def specLegalTerm (pfx : List Char) (t : Char) : Bool :=
  if pfx = s2l "NM" ∨ pfx = s2l "PM" then
    t == 'D' || t == 'G' || t == 'S' || t == 'B'
  else if pfx = s2l "R" ∨ pfx = s2l "C" then
    t == 'P' || t == 'N'
  else false

/-! ### The SPICE serializer's ordering (`generate_spice_netlist`) -/

/-- The character class `[A-Z]`. -/
def isUpperChar (c : Char) : Bool := 'A' ≤ c && c ≤ 'Z'

/-- `int(digits)`: decimal value of a digit string (leading zeros allowed). -/
def digitsVal (l : List Char) : Nat :=
  l.foldl (fun n c => n * 10 + (c.toNat - 48)) 0

/-- The sort key `(re.match(r"([A-Z]+)(\d+)", x).group(1), int(group(2)))`:
the alphabetic type part (compared by code points, as Python compares
strings) and the numeric id compared as an integer. -/
def spiceKey (name : List Char) : List Nat × Nat :=
  ((name.takeWhile isUpperChar).map Char.toNat,
   digitsVal ((name.dropWhile isUpperChar).takeWhile Char.isDigit))

/-- Lexicographic `≤` on code-point lists (Python string comparison). -/
def lexLe : List Nat → List Nat → Bool
  | [], _ => true
  | _ :: _, [] => false
  | a :: as, b :: bs => a < b || (a == b && lexLe as bs)

/-- Python tuple comparison on the sort keys: alphabetic part first, then the
numeric id. -/
def keyLe (a b : List Char) : Bool :=
  if (spiceKey a).1 = (spiceKey b).1 then (spiceKey a).2 ≤ (spiceKey b).2
  else lexLe (spiceKey a).1 (spiceKey b).1

/-- `keyLe` as a relation, for `List.insertionSort`. -/
def keyLeP (a b : List Char) : Prop := keyLe a b = true

instance : DecidableRel keyLeP := fun a b =>
  inferInstanceAs (Decidable (keyLe a b = true))

/-- `sorted(components.keys(), key=...)`: the component names in serialized
order (a stable sort by `spiceKey`). -/
def sortedCompNames (comps : Components) : List (List Char) :=
  List.insertionSort keyLeP (comps.map Prod.fst)

/-- `conns.get(term, 'NC')`. -/
def getOr (tm : TermMap) (t : Char) : List Char :=
  (lookupTerm tm t).getD (s2l "NC")

/-- The component line of the SPICE netlist, as a list of fields, following
the `startswith` chain of `generate_spice_netlist`; a name matching no
branch yields no line. -/
def spiceLineOpt (name : List Char) (tm : TermMap) :
    Option (List (List Char)) :=
  match name with
  | 'N' :: 'M' :: rest =>
    some (('M' :: rest) :: getOr tm 'D' :: getOr tm 'G' :: getOr tm 'S' ::
      getOr tm 'B' :: [s2l "nmos_model"])
  | 'P' :: 'M' :: rest =>
    some (('M' :: rest) :: getOr tm 'D' :: getOr tm 'G' :: getOr tm 'S' ::
      getOr tm 'B' :: [s2l "pmos_model"])
  | 'R' :: rest =>
    some (('R' :: rest) :: getOr tm 'P' :: getOr tm 'N' :: [s2l "1k"])
  | 'C' :: rest =>
    some (('C' :: rest) :: getOr tm 'P' :: getOr tm 'N' :: [s2l "1p"])
  | _ => none

/-- `generate_spice_netlist(components)`: the header comment, one line per
component in sorted order, then `.END`. Lines are kept as field lists; the
final space/newline joining is mechanical. -/
def generate_spice_netlist (comps : Components) : List (List (List Char)) :=
  [s2l "* Generated SPICE netlist"] ::
    ((sortedCompNames comps).filterMap
      (fun n => spiceLineOpt n ((lookupComp comps n).getD []))) ++
    [[s2l ".END"]]

/-! ### Lookup and insertion lemmas -/

theorem lookupTerm_append_single (tm : TermMap) (t : Char) (v : List Char)
    (t' : Char) :
    lookupTerm (tm ++ [(t, v)]) t' =
      match lookupTerm tm t' with
      | some w => some w
      | none => if t = t' then some v else none := by
  induction tm with
  | nil => simp [lookupTerm]
  | cons p rest ih =>
    obtain ⟨u, w⟩ := p
    by_cases h : u = t' <;> simp [lookupTerm, h, ih]

theorem lookupTerm_insert_mono {tm : TermMap} {t' : Char} {w : List Char}
    (t : Char) (v : List Char) (h : lookupTerm tm t' = some w) :
    lookupTerm (insertTermIfAbsent tm t v) t' = some w := by
  unfold insertTermIfAbsent
  cases hoc : lookupTerm tm t with
  | some _ => exact h
  | none => rw [lookupTerm_append_single, h]

theorem lookupTerm_insert_cases {tm : TermMap} {t t' : Char}
    {v w : List Char}
    (h : lookupTerm (insertTermIfAbsent tm t v) t' = some w) :
    lookupTerm tm t' = some w ∨ (t' = t ∧ w = v) := by
  unfold insertTermIfAbsent at h
  cases hoc : lookupTerm tm t with
  | some u => rw [hoc] at h; exact Or.inl h
  | none =>
    rw [hoc, lookupTerm_append_single] at h
    cases hl : lookupTerm tm t' with
    | some u => rw [hl] at h; exact Or.inl h
    | none =>
      rw [hl] at h
      by_cases he : t = t'
      · simp [he] at h
        exact Or.inr ⟨he.symm, h.symm⟩
      · simp [he] at h

theorem insertTermIfAbsent_ne_nil (tm : TermMap) (t : Char) (v : List Char) :
    insertTermIfAbsent tm t v ≠ [] := by
  unfold insertTermIfAbsent
  cases hoc : lookupTerm tm t with
  | some u =>
    cases tm with
    | nil => simp [lookupTerm] at hoc
    | cons p rest => simp
  | none => simp

theorem lookupComp_recordIfAbsent (comps : Components) (n : List Char)
    (t : Char) (v : List Char) (n' : List Char) :
    lookupComp (recordIfAbsent comps n t v) n' =
      if n = n' then
        match lookupComp comps n with
        | some tm => some (insertTermIfAbsent tm t v)
        | none => some [(t, v)]
      else lookupComp comps n' := by
  induction comps with
  | nil =>
    by_cases h : n = n' <;> simp [recordIfAbsent, lookupComp, h]
  | cons p rest ih =>
    obtain ⟨k, tm⟩ := p
    by_cases hk : k = n
    · subst hk
      by_cases h : k = n' <;>
        simp [recordIfAbsent, lookupComp, h, ih]
    · by_cases h : k = n'
      · subst h
        have hn : ¬ n = k := fun he => hk he.symm
        simp [recordIfAbsent, lookupComp, hk, hn]
      · simp [recordIfAbsent, lookupComp, hk, h, ih]

theorem lookup2_record_mono {comps : Components} {n' : List Char} {t' : Char}
    {w : List Char} (n : List Char) (t : Char) (v : List Char)
    (h : lookup2 comps n' t' = some w) :
    lookup2 (recordIfAbsent comps n t v) n' t' = some w := by
  unfold lookup2 at h ⊢
  rw [lookupComp_recordIfAbsent]
  cases hc : lookupComp comps n' with
  | none => rw [hc] at h; exact absurd h (by simp)
  | some tm =>
    rw [hc] at h
    by_cases he : n = n'
    · subst he
      rw [hc]
      simp only [if_pos rfl]
      exact lookupTerm_insert_mono t v h
    · rw [if_neg he]
      exact h

theorem lookup2_tryRecord_mono {comps : Components} {n' : List Char}
    {t' : Char} {w : List Char} (n : List Char) (t : Char) (tok : List Char)
    (h : lookup2 comps n' t' = some w) :
    lookup2 (tryRecord comps n t tok) n' t' = some w := by
  unfold tryRecord
  split
  · exact h
  · exact lookup2_record_mono n t tok h

theorem lookupComp_tryRecord_cases {comps : Components} {n n' : List Char}
    {t : Char} {tok : List Char} {tm' : TermMap}
    (h : lookupComp (tryRecord comps n t tok) n' = some tm') :
    lookupComp comps n' = some tm' ∨
      (n' = n ∧ tok ≠ n ∧ sameComp n tok = false ∧
        ((∃ tm, lookupComp comps n = some tm ∧
            tm' = insertTermIfAbsent tm t tok) ∨
          (lookupComp comps n = none ∧ tm' = [(t, tok)]))) := by
  unfold tryRecord at h
  split at h
  · exact Or.inl h
  · rename_i hguard
    push_neg at hguard
    obtain ⟨hne, hsc⟩ := hguard
    rw [lookupComp_recordIfAbsent] at h
    by_cases he : n = n'
    · subst he
      rw [if_pos rfl] at h
      refine Or.inr ⟨rfl, hne, by simpa using hsc, ?_⟩
      cases hc : lookupComp comps n with
      | some tm =>
        rw [hc] at h
        exact Or.inl ⟨tm, rfl, by injection h with h; exact h.symm⟩
      | none =>
        rw [hc] at h
        exact Or.inr ⟨rfl, by injection h with h; exact h.symm⟩
    · rw [if_neg he] at h
      exact Or.inl h

/-! ### Shape of regex matches -/

theorem matchPfx_eq_some {tok pfx rest : List Char}
    (h : matchPfx tok = some (pfx, rest)) :
    tok = pfx ++ rest ∧
      (pfx = s2l "NM" ∨ pfx = s2l "PM" ∨ pfx = s2l "R" ∨ pfx = s2l "C") := by
  match tok with
  | [] => simp [matchPfx] at h
  | [c1] =>
    simp only [matchPfx] at h
    split_ifs at h with h1 h2 <;>
      simp_all [s2l]
  | c1 :: c2 :: rest0 =>
    simp only [matchPfx] at h
    split_ifs at h with h1 h2 h3 h4 <;>
      simp_all [s2l] <;> rw [← h.1] <;> rfl

theorem takeWhile_all_eq_true (p : Char → Bool) (l : List Char) :
    (l.takeWhile p).all p = true := by
  induction l with
  | nil => simp
  | cons c rest ih =>
    by_cases h : p c <;> simp [List.takeWhile, h, ih]

theorem matchTerminal_eq_some {tok : List Char} {m : TermMatch}
    (h : matchTerminal tok = some m) :
    isCompIdent (compNameOf m) = true ∧ isTermLetter m.termType = true := by
  unfold matchTerminal at h
  cases hp : matchPfx tok with
  | none => rw [hp] at h; exact absurd h (by simp)
  | some pr =>
    obtain ⟨pfx, rest⟩ := pr
    rw [hp] at h
    dsimp only at h
    by_cases hne : rest.takeWhile Char.isDigit = []
    · rw [if_pos hne] at h; exact absurd h (by simp)
    rw [if_neg hne] at h
    cases hrest2 : rest.dropWhile Char.isDigit with
    | nil => rw [hrest2] at h; exact absurd h (by simp)
    | cons c rest2 =>
      cases rest2 with
      | nil => rw [hrest2] at h; exact absurd h (by simp)
      | cons t rest3 =>
        rw [hrest2] at h
        dsimp only at h
        split_ifs at h with hcond
        injection h with h
        subst h
        refine ⟨?_, hcond.2.1⟩
        unfold isCompIdent compNameOf
        have hdig : (rest.takeWhile Char.isDigit).all Char.isDigit = true :=
          takeWhile_all_eq_true Char.isDigit rest
        rcases (matchPfx_eq_some hp).2 with h4 | h4 | h4 | h4 <;>
          · subst h4
            simp only [s2l] at *
            cases htk : rest.takeWhile Char.isDigit with
            | nil => exact absurd htk hne
            | cons d ds =>
              rw [htk] at hdig
              simp [matchPfx, htk, hdig]

/-! ### The parse invariant -/

/-- Everything `parse_connections` ever builds satisfies this: keys are
well-formed component identifiers, inner maps are nonempty, terminal keys
come from the regex class, and no recorded node is the owning component's
bare name or one of its own terminals. -/
def goodMap (c : Components) : Prop :=
  ∀ n tm, lookupComp c n = some tm →
    isCompIdent n = true ∧ tm ≠ [] ∧
      ∀ t v, lookupTerm tm t = some v →
        isTermLetter t = true ∧ v ≠ n ∧ sameComp n v = false

theorem goodMap_nil : goodMap [] := by
  intro n tm h
  simp [lookupComp] at h

theorem goodMap_tryRecord {c : Components} {n : List Char} {t : Char}
    {tok : List Char} (hg : goodMap c) (hn : isCompIdent n = true)
    (ht : isTermLetter t = true) : goodMap (tryRecord c n t tok) := by
  intro n' tm' h
  rcases lookupComp_tryRecord_cases h with hold | ⟨he, hne, hsc, hnew⟩
  · exact hg n' tm' hold
  · subst he
    rcases hnew with ⟨tm, htm, hins⟩ | ⟨_, hins⟩
    · subst hins
      obtain ⟨_, _, hterms⟩ := hg _ tm htm
      refine ⟨hn, insertTermIfAbsent_ne_nil tm t tok, ?_⟩
      intro t' v hv
      rcases lookupTerm_insert_cases hv with hvold | ⟨het, hev⟩
      · exact hterms t' v hvold
      · subst het; subst hev
        exact ⟨ht, hne, hsc⟩
    · subst hins
      refine ⟨hn, by simp, ?_⟩
      intro t' v hv
      unfold lookupTerm at hv
      split_ifs at hv with he2
      · subst he2
        injection hv with hv
        subst hv
        exact ⟨ht, hne, hsc⟩
      · simp [lookupTerm] at hv

theorem goodMap_leftRecord {path : List (List Char)} {c : Components}
    {m : TermMatch} {i : Nat} (hg : goodMap c)
    (hm : isCompIdent (compNameOf m) = true)
    (ht : isTermLetter m.termType = true) :
    goodMap (leftRecord path c m i) := by
  cases i with
  | zero => exact hg
  | succ j =>
    cases hpj : path[j]? with
    | none => simpa only [leftRecord, hpj] using hg
    | some prev => simpa only [leftRecord, hpj] using goodMap_tryRecord hg hm ht

theorem goodMap_rightRecord {path : List (List Char)} {c : Components}
    {m : TermMatch} {i : Nat} (hg : goodMap c)
    (hm : isCompIdent (compNameOf m) = true)
    (ht : isTermLetter m.termType = true) :
    goodMap (rightRecord path c m i) := by
  cases hpn : path[i + 1]? with
  | none => simpa only [rightRecord, hpn] using hg
  | some next => simpa only [rightRecord, hpn] using goodMap_tryRecord hg hm ht

theorem goodMap_processToken {path : List (List Char)} {c : Components}
    {i : Nat} (hg : goodMap c) : goodMap (processToken path c i) := by
  cases hpi : path[i]? with
  | none => simpa only [processToken, hpi] using hg
  | some part =>
    cases hm : matchTerminal part with
    | none => simpa only [processToken, hpi, hm] using hg
    | some m =>
      obtain ⟨h1, h2⟩ := matchTerminal_eq_some hm
      simpa only [processToken, hpi, hm] using
        goodMap_rightRecord (goodMap_leftRecord hg h1 h2) h1 h2

theorem goodMap_foldl (path : List (List Char)) :
    ∀ (idxs : List Nat) (c : Components), goodMap c →
      goodMap (idxs.foldl (processToken path) c) := by
  intro idxs
  induction idxs with
  | nil => intro c hg; exact hg
  | cons i rest ih =>
    intro c hg
    exact ih (processToken path c i) (goodMap_processToken hg)

/-- The master invariant holds of every parse result. -/
theorem goodMap_parse (data : List Char) :
    goodMap (parse_connections data) := by
  unfold parse_connections
  exact goodMap_foldl _ _ [] goodMap_nil

/-! ### First-write-wins monotonicity -/

theorem lookup2_leftRecord_mono {path : List (List Char)} {c : Components}
    {m : TermMatch} {i : Nat} {n : List Char} {t : Char} {v : List Char}
    (h : lookup2 c n t = some v) :
    lookup2 (leftRecord path c m i) n t = some v := by
  cases i with
  | zero => exact h
  | succ j =>
    cases hpj : path[j]? with
    | none => simpa only [leftRecord, hpj] using h
    | some prev =>
      simpa only [leftRecord, hpj] using lookup2_tryRecord_mono _ _ _ h

theorem lookup2_rightRecord_mono {path : List (List Char)} {c : Components}
    {m : TermMatch} {i : Nat} {n : List Char} {t : Char} {v : List Char}
    (h : lookup2 c n t = some v) :
    lookup2 (rightRecord path c m i) n t = some v := by
  cases hpn : path[i + 1]? with
  | none => simpa only [rightRecord, hpn] using h
  | some next =>
    simpa only [rightRecord, hpn] using lookup2_tryRecord_mono _ _ _ h

theorem lookup2_processToken_mono {path : List (List Char)} {c : Components}
    {i : Nat} {n : List Char} {t : Char} {v : List Char}
    (h : lookup2 c n t = some v) :
    lookup2 (processToken path c i) n t = some v := by
  cases hpi : path[i]? with
  | none => simpa only [processToken, hpi] using h
  | some part =>
    cases hm : matchTerminal part with
    | none => simpa only [processToken, hpi, hm] using h
    | some m =>
      simpa only [processToken, hpi, hm] using
        lookup2_rightRecord_mono (lookup2_leftRecord_mono h)

theorem lookup2_foldl_mono (path : List (List Char)) :
    ∀ (idxs : List Nat) (c : Components) (n : List Char) (t : Char)
      (v : List Char), lookup2 c n t = some v →
        lookup2 (idxs.foldl (processToken path) c) n t = some v := by
  intro idxs
  induction idxs with
  | nil => intro c n t v h; exact h
  | cons i rest ih =>
    intro c n t v h
    exact ih _ n t v (lookup2_processToken_mono h)

/-! ### Degenerate inputs -/

theorem processToken_no_match {path : List (List Char)} {c : Components}
    {i : Nat}
    (h : ∀ tok ∈ path, matchTerminal tok = none) :
    processToken path c i = c := by
  cases hpi : path[i]? with
  | none => simp only [processToken, hpi]
  | some part =>
    have hmem : part ∈ path := by
      have := List.getElem?_eq_some.mp hpi
      obtain ⟨hlt, hget⟩ := this
      exact hget ▸ List.getElem_mem hlt
    simp only [processToken, hpi, h part hmem]

theorem foldl_processToken_no_match {path : List (List Char)}
    (h : ∀ tok ∈ path, matchTerminal tok = none) :
    ∀ (idxs : List Nat) (c : Components),
      idxs.foldl (processToken path) c = c := by
  intro idxs
  induction idxs with
  | nil => intro c; rfl
  | cons i rest ih =>
    intro c
    rw [List.foldl_cons, processToken_no_match h]
    exact ih c

theorem parse_no_match {data : List Char}
    (h : ∀ tok ∈ splitArrow (pyStrip data), matchTerminal tok = none) :
    parse_connections data = [] := by
  unfold parse_connections
  exact foldl_processToken_no_match h _ []

theorem parse_single_token {data : List Char}
    (h : (splitArrow (pyStrip data)).length = 1) :
    parse_connections data = [] := by
  obtain ⟨tok, htok⟩ := List.length_eq_one.mp h
  unfold parse_connections
  rw [htok]
  show processToken [tok] [] 0 = []
  cases hm : matchTerminal tok with
  | none => simp [processToken, hm]
  | some m => simp [processToken, hm, leftRecord, rightRecord]

/-! ### Ordering lemmas for the SPICE serializer -/

theorem lexLe_total (a b : List Nat) : lexLe a b = true ∨ lexLe b a = true := by
  induction a generalizing b with
  | nil => exact Or.inl rfl
  | cons x xs ih =>
    cases b with
    | nil => exact Or.inr rfl
    | cons y ys =>
      rcases Nat.lt_trichotomy x y with hxy | hxy | hxy
      · exact Or.inl (by simp [lexLe, hxy])
      · subst hxy
        rcases ih ys with h | h
        · exact Or.inl (by simp [lexLe, h])
        · exact Or.inr (by simp [lexLe, h])
      · exact Or.inr (by simp [lexLe, hxy])

theorem lexLe_antisymm {a b : List Nat} (hab : lexLe a b = true)
    (hba : lexLe b a = true) : a = b := by
  induction a generalizing b with
  | nil =>
    cases b with
    | nil => rfl
    | cons y ys => simp [lexLe] at hba
  | cons x xs ih =>
    cases b with
    | nil => simp [lexLe] at hab
    | cons y ys =>
      simp only [lexLe, Bool.or_eq_true, decide_eq_true_eq, Bool.and_eq_true,
        beq_iff_eq] at hab hba
      rcases hab with hlt | ⟨he, hr⟩
      · rcases hba with hlt' | ⟨he', _⟩
        · omega
        · omega
      · subst he
        rcases hba with hlt' | ⟨_, hr'⟩
        · omega
        · rw [ih hr hr']

theorem lexLe_trans {a b c : List Nat} (hab : lexLe a b = true)
    (hbc : lexLe b c = true) : lexLe a c = true := by
  induction a generalizing b c with
  | nil => rfl
  | cons x xs ih =>
    cases b with
    | nil => simp [lexLe] at hab
    | cons y ys =>
      cases c with
      | nil => simp [lexLe] at hbc
      | cons z zs =>
        simp only [lexLe, Bool.or_eq_true, decide_eq_true_eq,
          Bool.and_eq_true, beq_iff_eq] at hab hbc ⊢
        rcases hab with hlt | ⟨he, hr⟩ <;> rcases hbc with hlt' | ⟨he', hr'⟩
        · exact Or.inl (by omega)
        · exact Or.inl (by omega)
        · exact Or.inl (by omega)
        · subst he; subst he'
          exact Or.inr ⟨rfl, ih hr hr'⟩

instance : IsTotal (List Char) keyLeP := by
  constructor
  intro a b
  unfold keyLeP keyLe
  by_cases he : (spiceKey a).1 = (spiceKey b).1
  · simp [he, Nat.le_total (spiceKey a).2 (spiceKey b).2]
  · have hne : ¬ (spiceKey b).1 = (spiceKey a).1 := fun h => he h.symm
    simp only [if_neg he, if_neg hne]
    exact lexLe_total _ _

instance : IsTrans (List Char) keyLeP := by
  constructor
  intro a b c hab hbc
  unfold keyLeP keyLe at hab hbc ⊢
  by_cases hab1 : (spiceKey a).1 = (spiceKey b).1 <;>
    by_cases hbc1 : (spiceKey b).1 = (spiceKey c).1
  · rw [if_pos hab1] at hab
    rw [if_pos hbc1] at hbc
    rw [if_pos (hab1.trans hbc1)]
    simp only [decide_eq_true_eq] at *
    omega
  · rw [if_pos hab1] at hab
    rw [if_neg hbc1] at hbc
    rw [hab1, if_neg hbc1]
    exact hbc
  · rw [if_neg hab1] at hab
    rw [if_pos hbc1] at hbc
    rw [← hbc1, if_neg hab1]
    exact hab
  · rw [if_neg hab1] at hab
    rw [if_neg hbc1] at hbc
    by_cases hac1 : (spiceKey a).1 = (spiceKey c).1
    · exfalso
      rw [← hac1] at hbc
      exact hab1 (lexLe_antisymm hab hbc)
    · rw [if_neg hac1]
      exact lexLe_trans hab hbc

/-- The serializer's key order holds along the emitted component sequence. -/
theorem sortedCompNames_sorted (comps : Components) :
    List.Sorted keyLeP (sortedCompNames comps) :=
  List.sorted_insertionSort keyLeP (comps.map Prod.fst)

/-- The emitted component sequence is a permutation of the map's keys. -/
theorem sortedCompNames_perm (comps : Components) :
    (sortedCompNames comps).Perm (comps.map Prod.fst) :=
  List.perm_insertionSort keyLeP (comps.map Prod.fst)

theorem lookup2_eq_some {c : Components} {n : List Char} {t : Char}
    {v : List Char} (h : lookup2 c n t = some v) :
    ∃ tm, lookupComp c n = some tm ∧ lookupTerm tm t = some v := by
  unfold lookup2 at h
  cases hc : lookupComp c n with
  | none => rw [hc] at h; exact absurd h (by simp)
  | some tm => rw [hc] at h; exact ⟨tm, rfl, h⟩

/-! ### Claims -/

/-- C1: at most one node name is ever recorded per terminal and the first
admissible discovery wins: processing any further loop steps never changes an
already recorded value (so a right neighbor or a later occurrence never
overwrites), and `"A->R1_P->B"` yields `R1` with `P → A` while `B` is
discarded, even when `R1_P->B` occurs again. -/
theorem claim_C1 :
    (∀ (path : List (List Char)) (idxs : List Nat) (c : Components)
        (n : List Char) (t : Char) (v : List Char),
      lookup2 c n t = some v →
        lookup2 (idxs.foldl (processToken path) c) n t = some v) ∧
    parse_connections (s2l "A->R1_P->B") = [(s2l "R1", [('P', s2l "A")])] ∧
    parse_connections (s2l "A->R1_P->B->R1_P->B") =
      [(s2l "R1", [('P', s2l "A")])] :=
  ⟨fun path idxs c n t v h => lookup2_foldl_mono path idxs c n t v h,
   by decide, by decide⟩

theorem claim_C1_witness :
    lookup2
        (([1, 2] : List Nat).foldl
          (processToken (splitArrow (s2l "A->R1_P->B")))
          [(s2l "R1", [('P', s2l "A")])])
        (s2l "R1") 'P' = some (s2l "A") :=
  claim_C1.1 _ [1, 2] _ _ _ _ (by decide)

/-- C2: a neighbor equal to the owning component's bare identifier or to a
terminal of the same component is never recorded: every recorded node differs
from the owning identifier and is not a same-component terminal token, and
`"NM1_D->NM1_G->X"` yields exactly `NM1` with no entry for `D` and `G → X`. -/
theorem claim_C2 :
    (∀ (data : List Char) (n : List Char) (t : Char) (v : List Char),
      lookup2 (parse_connections data) n t = some v →
        v ≠ n ∧ sameComp n v = false) ∧
    parse_connections (s2l "NM1_D->NM1_G->X") =
      [(s2l "NM1", [('G', s2l "X")])] ∧
    lookup2 (parse_connections (s2l "NM1_D->NM1_G->X")) (s2l "NM1") 'D' =
      none := by
  refine ⟨?_, by decide, by decide⟩
  intro data n t v h
  obtain ⟨tm, hc, ht⟩ := lookup2_eq_some h
  obtain ⟨_, _, hterms⟩ := goodMap_parse data n tm hc
  obtain ⟨_, h2, h3⟩ := hterms t v ht
  exact ⟨h2, h3⟩

theorem claim_C2_witness :
    s2l "X" ≠ s2l "NM1" ∧ sameComp (s2l "NM1") (s2l "X") = false :=
  claim_C2.1 (s2l "NM1_D->NM1_G->X") (s2l "NM1") 'G' (s2l "X") (by decide)

/-- C3 as stated is false: the terminal regex uses the single shared class
`[DGSBPN]` for every prefix, so `"X->R1_D"` records terminal `D` on the
Resistor `R1` although `D` is not a legal Resistor terminal code. -/
theorem claim_C3_counterexample :
    lookup2 (parse_connections (s2l "X->R1_D")) (s2l "R1") 'D' =
      some (s2l "X") ∧
    matchPfx (s2l "R1") = some (s2l "R", s2l "1") ∧
    specLegalTerm (s2l "R") 'D' = false := by decide

/-- C3 amended: every component key of the result matches the identifier
pattern (NM, PM, R, or C followed by digits) and every terminal key is in the
single shared class `[DGSBPN]` — but not necessarily legal for that
component's type. -/
theorem claim_C3_amended :
    ∀ (data : List Char) (n : List Char) (t : Char) (v : List Char),
      lookup2 (parse_connections data) n t = some v →
        isCompIdent n = true ∧ isTermLetter t = true := by
  intro data n t v h
  obtain ⟨tm, hc, ht⟩ := lookup2_eq_some h
  obtain ⟨h1, _, hterms⟩ := goodMap_parse data n tm hc
  exact ⟨h1, (hterms t v ht).1⟩

theorem claim_C3_amended_witness :
    isCompIdent (s2l "R1") = true ∧ isTermLetter 'D' = true :=
  claim_C3_amended (s2l "X->R1_D") (s2l "R1") 'D' (s2l "X") (by decide)

/-- C4 as stated is false: `"R1_D"` has a recognized prefix and numeric id
and a terminal letter (`D`) that is not a terminal code of the Resistor type,
yet it IS a terminal match and contributes a Resistor terminal mapping. -/
theorem claim_C4_counterexample :
    matchTerminal (s2l "R1_D") = some ⟨s2l "R", s2l "1", 'D'⟩ ∧
    specLegalTerm (s2l "R") 'D' = false ∧
    parse_connections (s2l "X->R1_D") = [(s2l "R1", [('D', s2l "X")])] := by
  decide

/-- C4 amended: a token whose terminal letter is outside the single shared
class `[DGSBPN]` is not a terminal match at all and is treated purely as a
node name: every match's letter is in the class, `"R1_Z"` does not match, and
in `"NM2_G->R1_Z"` the token `R1_Z` contributes no component and is recorded
as the node connected to terminal `G` of `NM2`. -/
theorem claim_C4_amended :
    (∀ (tok : List Char) (m : TermMatch), matchTerminal tok = some m →
      isTermLetter m.termType = true) ∧
    matchTerminal (s2l "R1_Z") = none ∧
    parse_connections (s2l "NM2_G->R1_Z") =
      [(s2l "NM2", [('G', s2l "R1_Z")])] :=
  ⟨fun tok m h => (matchTerminal_eq_some h).2, by decide, by decide⟩

theorem claim_C4_amended_witness : isTermLetter 'D' = true :=
  claim_C4_amended.1 (s2l "NM1_D") ⟨s2l "NM", s2l "1", 'D'⟩ (by decide)

/-- C5: the interpreter is a total function (the embedding returns for every
input); the empty string, any input none of whose tokens matches the terminal
regex, and any input splitting into exactly one token all yield the empty
component map. -/
theorem claim_C5 :
    parse_connections (s2l "") = [] ∧
    (∀ data : List Char,
      (∀ tok ∈ splitArrow (pyStrip data), matchTerminal tok = none) →
        parse_connections data = []) ∧
    (∀ data : List Char, (splitArrow (pyStrip data)).length = 1 →
      parse_connections data = []) :=
  ⟨by decide, fun _ h => parse_no_match h, fun _ h => parse_single_token h⟩

theorem claim_C5_witness :
    parse_connections (s2l "foo->bar") = [] ∧
    parse_connections (s2l "NM1_D") = [] :=
  ⟨claim_C5.2.1 (s2l "foo->bar") (by decide),
   claim_C5.2.2 (s2l "NM1_D") (by decide)⟩

/-- C6: a token whose prefix is not exactly NM, PM, R, or C (case-sensitive)
never becomes a component key: every key matches the identifier pattern, and
in particular `"VDD"` and `"nm1_d"` are never keys of any parse result. -/
theorem claim_C6 :
    (∀ (data : List Char) (n : List Char) (tm : TermMap),
      lookupComp (parse_connections data) n = some tm →
        isCompIdent n = true) ∧
    isCompIdent (s2l "VDD") = false ∧
    isCompIdent (s2l "nm1_d") = false ∧
    (∀ data : List Char,
      lookupComp (parse_connections data) (s2l "VDD") = none ∧
      lookupComp (parse_connections data) (s2l "nm1_d") = none) := by
  have h1 : ∀ (data : List Char) (n : List Char) (tm : TermMap),
      lookupComp (parse_connections data) n = some tm →
        isCompIdent n = true :=
    fun data n tm h => (goodMap_parse data n tm h).1
  refine ⟨h1, by decide, by decide, ?_⟩
  intro data
  constructor
  · cases h : lookupComp (parse_connections data) (s2l "VDD") with
    | none => rfl
    | some tm => exact absurd (h1 data _ tm h) (by decide)
  · cases h : lookupComp (parse_connections data) (s2l "nm1_d") with
    | none => rfl
    | some tm => exact absurd (h1 data _ tm h) (by decide)

theorem claim_C6_witness : isCompIdent (s2l "R1") = true :=
  claim_C6.1 (s2l "A->R1_P") (s2l "R1") [('P', s2l "A")] (by decide)

/-- C7: the SPICE serializer emits its component lines sorted by the pair
(alphabetic type prefix, numeric id as an integer): the emitted key sequence
is sorted under that key order and is a permutation of the map's keys, and on
a concrete map `C1` precedes `NM2` which precedes `NM10` (integer comparison
of ids). -/
theorem claim_C7 :
    (∀ comps : Components, List.Sorted keyLeP (sortedCompNames comps) ∧
      (sortedCompNames comps).Perm (comps.map Prod.fst)) ∧
    sortedCompNames
        [(s2l "NM10", [('D', s2l "X")]), (s2l "NM2", [('G', s2l "Y")]),
         (s2l "C1", [('P', s2l "A")])] =
      [s2l "C1", s2l "NM2", s2l "NM10"] ∧
    generate_spice_netlist
        [(s2l "NM10", [('D', s2l "X")]), (s2l "NM2", [('G', s2l "Y")]),
         (s2l "C1", [('P', s2l "A")])] =
      [[s2l "* Generated SPICE netlist"],
       [s2l "C1", s2l "A", s2l "NC", s2l "1p"],
       [s2l "M2", s2l "NC", s2l "Y", s2l "NC", s2l "NC", s2l "nmos_model"],
       [s2l "M10", s2l "X", s2l "NC", s2l "NC", s2l "NC", s2l "nmos_model"],
       [s2l ".END"]] :=
  ⟨fun comps => ⟨sortedCompNames_sorted comps, sortedCompNames_perm comps⟩,
   by decide, by decide⟩

/-- C8: every component key of a parse result has a nonempty inner mapping;
a component whose terminals only ever see excluded neighbors is never
created, so `"NM1_D->NM1_G"` parses to the empty map. -/
theorem claim_C8 :
    (∀ (data : List Char) (n : List Char) (tm : TermMap),
      lookupComp (parse_connections data) n = some tm → tm ≠ []) ∧
    parse_connections (s2l "NM1_D->NM1_G") = [] :=
  ⟨fun data n tm h => (goodMap_parse data n tm h).2.1, by decide⟩

theorem claim_C8_witness : ([('P', s2l "A")] : TermMap) ≠ [] :=
  claim_C8.1 (s2l "A->R1_P") (s2l "R1") [('P', s2l "A")] (by decide)

/-- C9: an empty token produced by a leading separator passes every
neighbor-exclusion check and is recorded verbatim: `"->NM1_D"` yields `NM1`
with terminal `D` connected to the empty string. -/
theorem claim_C9 :
    parse_connections (s2l "->NM1_D") = [(s2l "NM1", [('D', s2l "")])] := by
  decide

/-- C10: the matched digit substring is embedded verbatim in the component
identifier, so `NM01` and `NM1` are distinct components even though both
numeric ids equal 1. -/
theorem claim_C10 :
    parse_connections (s2l "A->NM01_D->X->NM1_G->Y") =
      [(s2l "NM01", [('D', s2l "A")]), (s2l "NM1", [('G', s2l "X")])] ∧
    s2l "NM01" ≠ s2l "NM1" ∧
    digitsVal (s2l "01") = 1 ∧ digitsVal (s2l "1") = 1 := by decide

end Euler
